import Mathlib

/-!
Verification of the heredity inference engine (`heredity.py`).

The program performs exact probabilistic inference over a small pedigree:
it enumerates hypotheses (a three-way gene-count partition of the people
plus a trait subset), scores each with `joint_probability`, folds the score
into a belief state with `update`, and finally rescales with `normalize`.

All probabilistic arithmetic is embedded over `ℚ`; the Python decimal
literals (0.01, 0.96, ...) denote exactly these rationals.
-/

namespace Heredity

/-- `PROBS["gene"]` : unconditional gene-count prior. -/
def PROBS_gene : Fin 3 → ℚ
  | 0 => 0.96
  | 1 => 0.03
  | 2 => 0.01

/-- `PROBS["trait"]` : trait emission probability conditioned on gene count. -/
def PROBS_trait : Fin 3 → Bool → ℚ
  | 2, true => 0.65
  | 2, false => 0.35
  | 1, true => 0.56
  | 1, false => 0.44
  | 0, true => 0.01
  | 0, false => 0.99

/-- `PROBS["mutation"]` : mutation probability. -/
def PROBS_mutation : ℚ := 0.01

/-- The `people` dictionary produced by `load_data`: a finite set of names,
and for each name an optional mother, optional father and optional observed
trait.  The field functions are total; only their values on `names` are
meaningful. -/
structure Pedigree (ι : Type) where
  names : Finset ι
  mother : ι → Option ι
  father : ι → Option ι
  trait : ι → Option Bool

variable {ι : Type} [LinearOrder ι] [DecidableEq ι]

/-- Python membership test `x in s` where `x` may be `None`
(`None in s` is `False` for a set of names). -/
def omem (x : Option ι) (s : Finset ι) : Prop :=
  ∃ y ∈ s, x = some y

instance (x : Option ι) (s : Finset ι) : Decidable (omem x s) := by
  unfold omem; infer_instance

omit [LinearOrder ι] in
@[simp] theorem omem_some (y : ι) (s : Finset ι) : omem (some y) s ↔ y ∈ s := by
  simp [omem]

omit [LinearOrder ι] in
@[simp] theorem omem_none (s : Finset ι) : omem (none : Option ι) s ↔ False := by
  simp [omem]

/-- `set_no_genes = set_people - one_gene - two_genes`. -/
def noGenes (ped : Pedigree ι) (one two : Finset ι) : Finset ι :=
  (ped.names \ one) \ two

/-- Gene-count factor branch chain for a person iterated in `two_genes`
(lines 153-178 of the source); `none` models the `raise TypeError` branch. -/
def geneFac2 (ped : Pedigree ι) (one two : Finset ι) (p : ι) : Option ℚ :=
  let m := ped.mother p
  let f := ped.father p
  let no := noGenes ped one two
  if m = none ∧ f = none then some (PROBS_gene 2)
  else if omem m two ∧ omem f two then some (2 * (1 - PROBS_mutation))
  else if omem m no ∧ omem f no then some (PROBS_mutation ^ 2)
  else if omem m one ∧ omem f one then some (0.5 * 2 * (1 - PROBS_mutation))
  else if omem m one ∧ omem f no then some (0.5 * (1 - PROBS_mutation) * PROBS_mutation)
  else if omem f one ∧ omem m no then some (0.5 * (1 - PROBS_mutation) * PROBS_mutation)
  else if omem m two ∧ omem f no then some ((1 - PROBS_mutation) * PROBS_mutation)
  else if omem f two ∧ omem m no then some ((1 - PROBS_mutation) * PROBS_mutation)
  else if omem m one ∧ omem f two then some (0.5 * (1 - PROBS_mutation) ^ 2)
  else if omem f one ∧ omem m two then some (0.5 * (1 - PROBS_mutation) ^ 2)
  else none

/-- Gene-count factor branch chain for a person iterated in `one_gene`
(lines 191-216 of the source). -/
def geneFac1 (ped : Pedigree ι) (one two : Finset ι) (p : ι) : Option ℚ :=
  let m := ped.mother p
  let f := ped.father p
  let no := noGenes ped one two
  if m = none ∧ f = none then some (PROBS_gene 1)
  else if omem m two ∧ omem f two then some 1
  else if omem m no ∧ omem f no then some (PROBS_mutation * (1 - PROBS_mutation) * 2)
  else if omem m one ∧ omem f no then
    some (0.5 * (1 - PROBS_mutation) * (1 - PROBS_mutation) +
      0.5 * (1 - PROBS_mutation) * PROBS_mutation)
  else if omem f one ∧ omem m no then
    some (0.5 * (1 - PROBS_mutation) * (1 - PROBS_mutation) +
      0.5 * (1 - PROBS_mutation) * PROBS_mutation)
  else if omem m two ∧ omem f no then
    some ((1 - PROBS_mutation) ^ 2 + PROBS_mutation ^ 2)
  else if omem f two ∧ omem m no then
    some ((1 - PROBS_mutation) ^ 2 + PROBS_mutation ^ 2)
  else if omem m one ∧ omem f one then some ((0.5 * (1 - PROBS_mutation)) ^ 2 * 2)
  else if omem m one ∧ omem f two then some ((1 - PROBS_mutation) ^ 2 * 0.5 * 2)
  else if omem m two ∧ omem f one then some ((1 - PROBS_mutation) ^ 2 * 0.5 * 2)
  else none

/-- Gene-count factor branch chain for a person iterated in `set_no_genes`
(lines 227-252 of the source). -/
def geneFac0 (ped : Pedigree ι) (one two : Finset ι) (p : ι) : Option ℚ :=
  let m := ped.mother p
  let f := ped.father p
  let no := noGenes ped one two
  if m = none ∧ f = none then some (PROBS_gene 0)
  else if omem m two ∧ omem f two then some (PROBS_mutation ^ 2)
  else if omem m no ∧ omem f no then some ((1 - PROBS_mutation) ^ 2)
  else if omem m one ∧ omem f no then some (0.5 * (1 - PROBS_mutation))
  else if omem f one ∧ omem m no then some (0.5 * (1 - PROBS_mutation))
  else if omem m two ∧ omem f no then some (PROBS_mutation * (1 - PROBS_mutation))
  else if omem f two ∧ omem m no then some (PROBS_mutation * (1 - PROBS_mutation))
  else if omem m one ∧ omem f one then some ((0.5 * (1 - PROBS_mutation)) ^ 2)
  else if omem m one ∧ omem f two then some (PROBS_mutation * 0.5 * (1 - PROBS_mutation))
  else if omem m two ∧ omem f one then some (PROBS_mutation * 0.5 * (1 - PROBS_mutation))
  else none

/-- Dispatch to the branch chain of the section a person is iterated in. -/
def geneFac (g : Fin 3) (ped : Pedigree ι) (one two : Finset ι) (p : ι) : Option ℚ :=
  match g with
  | 0 => geneFac0 ped one two p
  | 1 => geneFac1 ped one two p
  | 2 => geneFac2 ped one two p

/-- Trait-emission factor of one person: `PROBS["trait"][g][True]` when the
person is in `have_trait`, `PROBS["trait"][g][False]` when in `set_no_trait`,
and `1` in the unreachable branch that only prints `Error` (the computed
probability is then multiplied into no accumulator). -/
def traitFac (g : Fin 3) (ped : Pedigree ι) (ht : Finset ι) (p : ι) : ℚ :=
  if p ∈ ht then PROBS_trait g true
  else if p ∈ ped.names \ ht then PROBS_trait g false
  else 1

/-- The full factor one person contributes to the returned product. -/
def personFac (g : Fin 3) (ped : Pedigree ι) (one two ht : Finset ι) (p : ι) : ℚ :=
  (geneFac g ped one two p).getD 0 * traitFac g ped ht p

/-- The product `joint_probability` returns when no branch raises: the six
accumulator variables multiply out to one factor per person of each section. -/
def jointVal (ped : Pedigree ι) (one two ht : Finset ι) : ℚ :=
  (∏ p ∈ two, personFac 2 ped one two ht p) *
    (∏ p ∈ one, personFac 1 ped one two ht p) *
    (∏ p ∈ noGenes ped one two, personFac 0 ped one two ht p)

/-- No person hits the `raise TypeError` branch of its section. -/
def typeErrorFree (ped : Pedigree ι) (one two : Finset ι) : Prop :=
  (∀ p ∈ two, (geneFac2 ped one two p).isSome) ∧
    (∀ p ∈ one, (geneFac1 ped one two p).isSome) ∧
    (∀ p ∈ noGenes ped one two, (geneFac0 ped one two p).isSome)

instance (ped : Pedigree ι) (one two : Finset ι) :
    Decidable (typeErrorFree ped one two) := by
  unfold typeErrorFree; infer_instance

/-- Some iterated person falls in neither `have_trait` nor `set_no_trait`,
so the source prints `Error` for it. -/
def printsError (ped : Pedigree ι) (one two ht : Finset ι) : Prop :=
  ∃ p ∈ two ∪ one ∪ noGenes ped one two, p ∉ ht ∧ p ∉ ped.names \ ht

/-- `joint_probability` : `none` models the raising executions. -/
def joint_probability (ped : Pedigree ι) (one two ht : Finset ι) : Option ℚ :=
  if typeErrorFree ped one two then some (jointVal ped one two ht) else none

/-- A multiset materialized as its ascending list of elements. -/
def sortMs (m : Multiset ι) : List ι :=
  Quot.liftOn m (fun l => l.insertionSort (· ≤ ·)) fun l₁ l₂ h =>
    List.eq_of_perm_of_sorted
      ((List.perm_insertionSort _ l₁).trans (h.trans (List.perm_insertionSort _ l₂).symm))
      (List.sorted_insertionSort _ l₁) (List.sorted_insertionSort _ l₂)

theorem sortMs_coe (m : Multiset ι) : (sortMs m : Multiset ι) = m := by
  refine Quot.inductionOn m (fun l => ?_)
  exact Multiset.coe_eq_coe.mpr (List.perm_insertionSort _ l)

/-- `list(s)` : the set materialized in its iteration order; the embedding
fixes the ascending order, one admissible iteration order of a Python set. -/
def setList (s : Finset ι) : List ι :=
  sortMs s.val

/-- The materialized list is a permutation of the elements of the set. -/
theorem setList_perm (s : Finset ι) : (setList s : Multiset ι) = s.val :=
  sortMs_coe s.val

theorem setList_nodup (s : Finset ι) : (setList s).Nodup := by
  have h := setList_perm s
  have := s.nodup
  rw [← h] at this
  exact this

theorem setList_toFinset (s : Finset ι) : (setList s).toFinset = s := by
  ext a
  rw [List.mem_toFinset]
  change a ∈ (setList s : Multiset ι) ↔ _
  rw [setList_perm s]
  rfl

theorem setList_length (s : Finset ι) : (setList s).length = s.card := by
  have h := setList_perm s
  have := congrArg Multiset.card h
  simpa using this

/-- `powerset(s)` : one subset per combination, grouped by size `r` from `0`
to `len(s)`, each tuple converted to a set. -/
def powerset (s : Finset ι) : List (Finset ι) :=
  (List.range (s.card + 1)).flatMap fun r => ((setList s).sublistsLen r).map List.toFinset

/-- A subset of the element set of a duplicate-free list is realized by one
of its sublists. -/
theorem exists_sublist_toFinset {l : List ι} (hl : l.Nodup) {t : Finset ι}
    (ht : t ⊆ l.toFinset) : ∃ lt : List ι, lt.Sublist l ∧ lt.toFinset = t := by
  induction l generalizing t with
  | nil =>
    refine ⟨[], List.Sublist.refl _, ?_⟩
    have : t = ∅ := Finset.subset_empty.mp (by simpa using ht)
    simp [this]
  | cons a l ih =>
    rcases List.nodup_cons.mp hl with ⟨_, hl2⟩
    by_cases hat : a ∈ t
    · have hsub : t.erase a ⊆ l.toFinset := by
        intro x hx
        rcases Finset.mem_erase.mp hx with ⟨hxa, hxt⟩
        have hx2 := ht hxt
        rw [List.toFinset_cons, Finset.mem_insert] at hx2
        exact hx2.resolve_left hxa
      obtain ⟨lt, hs, hf⟩ := ih hl2 hsub
      refine ⟨a :: lt, hs.cons₂ a, ?_⟩
      rw [List.toFinset_cons, hf, Finset.insert_erase hat]
    · have hsub : t ⊆ l.toFinset := by
        intro x hx
        have hx2 := ht hx
        rw [List.toFinset_cons, Finset.mem_insert] at hx2
        refine hx2.resolve_left fun hxa => hat (hxa ▸ hx)
      obtain ⟨lt, hs, hf⟩ := ih hl2 hsub
      exact ⟨lt, hs.cons a, hf⟩

/-- Membership in the returned list is exactly subsethood. -/
theorem mem_powerset {s t : Finset ι} : t ∈ powerset s ↔ t ⊆ s := by
  constructor
  · intro h
    rcases List.mem_flatMap.mp h with ⟨r, _, hm⟩
    rcases List.mem_map.mp hm with ⟨lt, hlt, rfl⟩
    intro x hx
    rw [List.mem_toFinset] at hx
    have hx2 : x ∈ (setList s).toFinset :=
      List.mem_toFinset.mpr ((List.mem_sublistsLen.mp hlt).1.subset hx)
    rwa [setList_toFinset] at hx2
  · intro h
    obtain ⟨lt, hs, hf⟩ :=
      exists_sublist_toFinset (setList_nodup s) (t := t)
        (by rw [setList_toFinset]; exact h)
    refine List.mem_flatMap.mpr ⟨lt.length, List.mem_range.mpr ?_, ?_⟩
    · have := hs.length_le
      rw [setList_length] at this
      omega
    · exact List.mem_map.mpr ⟨lt, List.mem_sublistsLen.mpr ⟨hs, rfl⟩, hf⟩

theorem length_powerset (s : Finset ι) : (powerset s).length = 2 ^ s.card := by
  rw [powerset, List.length_flatMap]
  have h2 : ((List.range (s.card + 1)).map
        (List.length ∘ fun r => ((setList s).sublistsLen r).map List.toFinset)).sum =
      ((List.range (s.card + 1)).map fun r => s.card.choose r).sum := by
    congr 1
    refine List.map_congr_left fun r _ => ?_
    simp only [Function.comp_apply, List.length_map, List.length_sublistsLen, setList_length]
  rw [h2]
  have h3 : ((List.range (s.card + 1)).map fun r => s.card.choose r).sum =
      ∑ r ∈ Finset.range (s.card + 1), s.card.choose r := rfl
  rw [h3, Nat.sum_range_choose]

theorem powerset_toFinset (s : Finset ι) : (powerset s).toFinset = s.powerset := by
  ext t
  rw [List.mem_toFinset, mem_powerset, Finset.mem_powerset]

theorem nodup_powerset (s : Finset ι) : (powerset s).Nodup := by
  have hd : (powerset s).dedup.length = (powerset s).length := by
    rw [← List.card_toFinset, powerset_toFinset, Finset.card_powerset, length_powerset]
  rw [← (List.dedup_sublist (powerset s)).eq_of_length hd]
  exact List.nodup_dedup _

/-- The `fails_evidence` test of `main` (lines 68-72): some person has a
known trait whose value disagrees with membership in `have_trait`. -/
def failsEvidence (ped : Pedigree ι) (ht : Finset ι) : Prop :=
  ∃ p ∈ ped.names, ped.trait p ≠ none ∧ ped.trait p ≠ some (decide (p ∈ ht))

instance (ped : Pedigree ι) (ht : Finset ι) : Decidable (failsEvidence ped ht) := by
  unfold failsEvidence; infer_instance

/-- The `probabilities` dictionary: per person, a gene-count distribution
over `{0, 1, 2}` and a trait distribution over `{True, False}`. -/
def BeliefState (ι : Type) : Type := ι → (Fin 3 → ℚ) × (Bool → ℚ)

/-- The zero-initialized `probabilities` of `main` (lines 48-61). -/
def zeroState : BeliefState ι := fun _ => (fun _ => 0, fun _ => 0)

/-- `d[g] += p` on a gene-count distribution. -/
def bump (d : Fin 3 → ℚ) (g : Fin 3) (p : ℚ) : Fin 3 → ℚ :=
  fun g' => if g' = g then d g' + p else d g'

/-- `d[b] += p` on a trait distribution. -/
def bumpT (d : Bool → ℚ) (b : Bool) (p : ℚ) : Bool → ℚ :=
  fun b' => if b' = b then d b' + p else d b'

/-- The per-person body of `update` (lines 274-300), branch for branch,
including the unreachable final `else` that only touches the trait buckets. -/
def updEntry (one two ht : Finset ι) (p : ℚ) (q : ι)
    (e : (Fin 3 → ℚ) × (Bool → ℚ)) : (Fin 3 → ℚ) × (Bool → ℚ) :=
  if q ∈ one then
    (if q ∈ ht then (bump e.1 1 p, bumpT e.2 true p)
     else (bump e.1 1 p, bumpT e.2 false p))
  else if q ∈ two then
    (if q ∈ ht then (bump e.1 2 p, bumpT e.2 true p)
     else (bump e.1 2 p, bumpT e.2 false p))
  else if q ∉ one ∧ q ∉ two then
    (if q ∈ ht then (bump e.1 0 p, bumpT e.2 true p)
     else (bump e.1 0 p, bumpT e.2 false p))
  else
    (if q ∈ ht then (e.1, bumpT e.2 true p)
     else (e.1, bumpT e.2 false p))

/-- `update` : fold one joint probability into the buckets of every person.
`names` is the key set of the `probabilities` dictionary. -/
def update (names : Finset ι) (probs : BeliefState ι) (one two ht : Finset ι)
    (p : ℚ) : BeliefState ι :=
  fun q => if q ∈ names then updEntry one two ht p q (probs q) else probs q

/-- The enumeration order of `main` (lines 65-82): evidence-consistent
`have_trait` subsets, then `one_gene` over all names, then `two_genes`
over the complement of `one_gene`. -/
def hypList (ped : Pedigree ι) : List (Finset ι × Finset ι × Finset ι) :=
  ((powerset ped.names).filter fun ht => decide (¬ failsEvidence ped ht)).flatMap fun ht =>
    (powerset ped.names).flatMap fun one =>
      (powerset (ped.names \ one)).map fun two => (ht, one, two)

/-- One iteration of the inner loop of `main` (lines 81-82). -/
def stepHyp (ped : Pedigree ι) (st : BeliefState ι)
    (h : Finset ι × Finset ι × Finset ι) : BeliefState ι :=
  update ped.names st h.2.1 h.2.2 h.1
    ((joint_probability ped h.2.1 h.2.2 h.1).getD 0)

/-- The belief state after the enumeration loop of `main`, before
normalization. -/
def runUpdates (ped : Pedigree ι) : BeliefState ι :=
  (hypList ped).foldl (stepHyp ped) zeroState

/-- `sum(probabilities[person]["gene"].values())`. -/
def geneTotal (st : BeliefState ι) (q : ι) : ℚ :=
  (st q).1 0 + (st q).1 1 + (st q).1 2

/-- `sum(probabilities[person]["trait"].values())`. -/
def traitTotal (st : BeliefState ι) (q : ι) : ℚ :=
  (st q).2 true + (st q).2 false

/-- `normalize` (lines 303-312): divide every bucket by the total of its distribution; `none` models the `ZeroDivisionError` a zero total raises. -/
def normalize (names : Finset ι) (st : BeliefState ι) : Option (BeliefState ι) :=
  if ∀ q ∈ names, geneTotal st q ≠ 0 ∧ traitTotal st q ≠ 0 then
    some (fun q =>
      if q ∈ names then
        (fun g => (st q).1 g / geneTotal st q, fun b => (st q).2 b / traitTotal st q)
      else st q)
  else none

/-- The inference pipeline of `main` after loading: enumerate, accumulate,
normalize. -/
def mainPosterior (ped : Pedigree ι) : Option (BeliefState ι) :=
  normalize ped.names (runUpdates ped)

/-- Sum of the joint probabilities of every enumerated evidence-consistent
hypothesis: the marginal likelihood of the evidence. -/
def totalLikelihood (ped : Pedigree ι) : ℚ :=
  ((hypList ped).map fun h => (joint_probability ped h.2.1 h.2.2 h.1).getD 0).sum

/-- The well-formedness contract of a loaded pedigree (docstring of
`load_data`): parents both absent, or both present and resolving to names
of the pedigree. -/
def Pedigree.WF (ped : Pedigree ι) : Prop :=
  ∀ p ∈ ped.names,
    (ped.mother p = none ∧ ped.father p = none) ∨
      ((∃ m ∈ ped.names, ped.mother p = some m) ∧
        ∃ f ∈ ped.names, ped.father p = some f)

instance (ped : Pedigree ι) : Decidable ped.WF := by
  unfold Pedigree.WF; infer_instance

/-- One CSV row with the four raw fields read by `load_data`. -/
structure RawRow where
  name : String
  mother : String
  father : String
  trait : String

/-- `row["mother"] or None` : an empty field is falsy and becomes `None`. -/
def parseParent (s : String) : Option String :=
  if s = "" then none else some s

/-- Trait parsing of `load_data` (lines 113-114). -/
def parseTrait (s : String) : Option Bool :=
  if s = "1" then some true else if s = "0" then some false else none

/-- Dictionary lookup after all rows are inserted: the last row with a
given name wins. -/
def findRow (rows : List RawRow) (n : String) : Option RawRow :=
  rows.reverse.find? fun r => r.name == n

/-- `load_data` (lines 97-116): build the `people` dictionary.  It applies
no validation beyond field parsing. -/
def load_data (rows : List RawRow) : Pedigree String where
  names := (rows.map RawRow.name).toFinset
  mother := fun n => (findRow rows n).bind fun r => parseParent r.mother
  father := fun n => (findRow rows n).bind fun r => parseParent r.father
  trait := fun n => (findRow rows n).bind fun r => parseTrait r.trait

/-- Modelled from the spec: the transmission probability `transmit(g)` that a
parent with gene count `g` passes the allele on, with mutation rate `0.01`. -/
def transmitSpec : Fin 3 → ℚ
  | 0 => 0.01
  | 1 => 0.5
  | 2 => 0.99

/-- Modelled from the spec: the closed-form gene-count factor of a child
whose mother carries `mg` and father carries `fg` copies. -/
def childFactorSpec (child mg fg : Fin 3) : ℚ :=
  let pm := transmitSpec mg
  let pf := transmitSpec fg
  match child with
  | 0 => (1 - pm) * (1 - pf)
  | 1 => pm * (1 - pf) + pf * (1 - pm)
  | 2 => pm * pf

/-- A three-person pedigree: founders `0` and `1`, child `2`. -/
def trioPed : Pedigree ℕ where
  names := {0, 1, 2}
  mother := fun n => if n = 2 then some 0 else none
  father := fun n => if n = 2 then some 1 else none
  trait := fun _ => none

/-- A pedigree with a single founder `0`, trait unobserved. -/
def singleFounder : Pedigree ℕ where
  names := {0}
  mother := fun _ => none
  father := fun _ => none
  trait := fun _ => none

/-- Claim C1: for a non-founder child the gene-count factor of the code is claimed
to equal the closed form with transmit(0)=0.01, transmit(1)=0.5,
transmit(2)=0.99.  The code violates this: with both parents hypothesized in
`two_genes`, the branch for a child in `two_genes` yields
`2*(1-0.01) = 1.98` where the closed form gives `0.99*0.99 = 0.9801`, and the
three child factors of the code for these parents sum to `2.9801`, not `1`. -/
theorem joint_probability_transmission_code_bug :
    geneFac2 trioPed ∅ {0, 1, 2} 2 = some 1.98 ∧
      childFactorSpec 2 2 2 = 0.9801 ∧
      geneFac2 trioPed ∅ {0, 1, 2} 2 ≠ some (childFactorSpec 2 2 2) ∧
      geneFac1 trioPed ∅ {0, 1} 2 = some 1 ∧
      geneFac0 trioPed ∅ {0, 1} 2 = some 0.0001 ∧
      (1.98 + 1 + 0.0001 : ℚ) ≠ 1 := by
  have hm : trioPed.mother 2 = some 0 := by decide
  have hf : trioPed.father 2 = some 1 := by decide
  have h0 : (0 : ℕ) ∈ ({0, 1, 2} : Finset ℕ) := by decide
  have h1 : (1 : ℕ) ∈ ({0, 1, 2} : Finset ℕ) := by decide
  have h0s : (0 : ℕ) ∈ ({0, 1} : Finset ℕ) := by decide
  have h1s : (1 : ℕ) ∈ ({0, 1} : Finset ℕ) := by decide
  have e2 : geneFac2 trioPed ∅ {0, 1, 2} 2 = some (2 * (1 - PROBS_mutation)) := by
    simp [geneFac2, hm, hf, h0, h1]
  have e1 : geneFac1 trioPed ∅ {0, 1} 2 = some 1 := by
    simp [geneFac1, hm, hf, h0s, h1s]
  have e0 : geneFac0 trioPed ∅ {0, 1} 2 = some (PROBS_mutation ^ 2) := by
    simp [geneFac0, hm, hf, h0s, h1s]
  refine ⟨?_, ?_, ?_, e1, ?_, by norm_num⟩
  · rw [e2]; norm_num [PROBS_mutation]
  · norm_num [childFactorSpec, transmitSpec]
  · rw [e2]
    intro h
    have := Option.some_injective _ h
    rw [childFactorSpec, transmitSpec] at this
    norm_num [PROBS_mutation] at this
  · rw [e0]; norm_num [PROBS_mutation]

set_option maxRecDepth 4000 in
/-- Claim C3: for a pedigree with one founder and no observed trait, the
full pipeline returns exactly the unconditional prior (0.96, 0.03, 0.01)
as the gene-count posterior. -/
theorem single_founder_posterior_eq_prior :
    (mainPosterior singleFounder).map
        (fun st => ((st 0).1 0, (st 0).1 1, (st 0).1 2)) =
      some (0.96, 0.03, 0.01) := by
  have hl : hypList singleFounder =
      [(∅, ∅, ∅), (∅, ∅, {0}), (∅, {0}, ∅), ({0}, ∅, ∅), ({0}, ∅, {0}), ({0}, {0}, ∅)] := by
    decide
  have hj : ∀ one two ht : Finset ℕ,
      joint_probability singleFounder one two ht = some (jointVal singleFounder one two ht) := by
    intro one two ht
    rw [joint_probability, if_pos]
    refine ⟨fun p _ => ?_, fun p _ => ?_, fun p _ => ?_⟩ <;>
      simp [geneFac2, geneFac1, geneFac0, singleFounder]
  have hbuck : ((runUpdates singleFounder) 0).1 0 = 0.96 ∧
      ((runUpdates singleFounder) 0).1 1 = 0.03 ∧
      ((runUpdates singleFounder) 0).1 2 = 0.01 ∧
      ((runUpdates singleFounder) 0).2 true = 0.0329 ∧
      ((runUpdates singleFounder) 0).2 false = 0.9671 := by
    rw [runUpdates, hl]
    refine ⟨?_, ?_, ?_, ?_, ?_⟩ <;>
    · simp only [List.foldl, stepHyp, hj, Option.getD_some]
      norm_num [update, updEntry, bump, bumpT, jointVal, personFac, geneFac, geneFac2, geneFac1,
        geneFac0, traitFac, noGenes, singleFounder, zeroState,
        PROBS_gene, PROBS_trait, PROBS_mutation, Fin.ext_iff]
  obtain ⟨hg0, hg1, hg2, htt, htf⟩ := hbuck
  have hcond : ∀ q ∈ singleFounder.names,
      geneTotal (runUpdates singleFounder) q ≠ 0 ∧
        traitTotal (runUpdates singleFounder) q ≠ 0 := by
    intro q hq
    have hq0 : q = 0 := by simpa [singleFounder] using hq
    subst hq0
    rw [geneTotal, traitTotal, hg0, hg1, hg2, htt, htf]
    norm_num
  rw [mainPosterior, normalize, if_pos hcond]
  have h0m : (0 : ℕ) ∈ singleFounder.names := by decide
  simp only [Option.map_some', Option.some_inj, h0m, if_true, geneTotal]
  rw [hg0, hg1, hg2]
  norm_num

/-- Claim C5: for every finite set `S` of size `n`, `powerset` returns
exactly `2 ^ n` distinct subsets of `S`, among them the empty set and `S`
itself, and for `n = 0` it returns the one-element list `[∅]`. -/
theorem powerset_exactly_all_subsets (s : Finset ι) :
    (powerset s).length = 2 ^ s.card ∧ (powerset s).Nodup ∧
      (∀ t : Finset ι, t ∈ powerset s ↔ t ⊆ s) ∧
      (∅ : Finset ι) ∈ powerset s ∧ s ∈ powerset s ∧
      (s.card = 0 → powerset s = [∅]) := by
  refine ⟨length_powerset s, nodup_powerset s, fun t => mem_powerset,
    mem_powerset.mpr (Finset.empty_subset s), mem_powerset.mpr subset_rfl, fun h => ?_⟩
  rw [Finset.card_eq_zero.mp h]
  rfl

/-- Witness for C5 at the concrete set `{3, 7}` and at a zero-size set. -/
theorem powerset_exactly_all_subsets_witness :
    ((powerset ({3, 7} : Finset ℕ)).length = 2 ^ ({3, 7} : Finset ℕ).card ∧
        (powerset ({3, 7} : Finset ℕ)).Nodup ∧
        (∀ t : Finset ℕ, t ∈ powerset ({3, 7} : Finset ℕ) ↔ t ⊆ {3, 7}) ∧
        (∅ : Finset ℕ) ∈ powerset ({3, 7} : Finset ℕ) ∧
        ({3, 7} : Finset ℕ) ∈ powerset ({3, 7} : Finset ℕ) ∧
        (({3, 7} : Finset ℕ).card = 0 → powerset ({3, 7} : Finset ℕ) = [∅])) ∧
      powerset (∅ : Finset ℕ) = [∅] :=
  ⟨powerset_exactly_all_subsets ({3, 7} : Finset ℕ),
    (powerset_exactly_all_subsets (∅ : Finset ℕ)).2.2.2.2.2 rfl⟩

/-- Passing the `fails_evidence` filter is exactly evidence-consistency:
every observed person is in `have_trait` iff their observed value is true. -/
theorem not_failsEvidence_iff (ped : Pedigree ι) (ht : Finset ι) :
    ¬ failsEvidence ped ht ↔
      ∀ p ∈ ped.names, ∀ b, ped.trait p = some b → (p ∈ ht ↔ b = true) := by
  rw [failsEvidence]
  push_neg
  constructor
  · intro h p hp b hb
    have h2 := h p hp (by rw [hb]; exact Option.some_ne_none b)
    rw [hb] at h2
    have h3 : b = decide (p ∈ ht) := Option.some_injective _ h2
    constructor
    · intro hm
      rw [h3]
      simpa using hm
    · intro hb1
      rw [hb1] at h3
      exact of_decide_eq_true h3.symm
  · intro h p hp hne
    obtain ⟨b, hb⟩ := Option.ne_none_iff_exists.mp hne
    rw [← hb]
    have h2 := h p hp b hb.symm
    by_cases hm : p ∈ ht
    · rw [(h2.mp hm : b = true)]
      simp [hm]
    · have : b = false := by
        cases b
        · rfl
        · exact absurd (h2.mpr rfl) hm
      rw [this]
      simp [hm]

/-- The hypotheses enumerated by `main`: exactly those whose subsets are in
range and whose `have_trait` agrees with every observation. -/
theorem mem_hypList (ped : Pedigree ι) (ht one two : Finset ι) :
    (ht, one, two) ∈ hypList ped ↔
      (ht ⊆ ped.names ∧ one ⊆ ped.names ∧ two ⊆ ped.names \ one ∧
        ∀ p ∈ ped.names, ∀ b, ped.trait p = some b → (p ∈ ht ↔ b = true)) := by
  rw [hypList]
  simp only [List.mem_flatMap, List.mem_map, List.mem_filter, Prod.mk.injEq,
    decide_eq_true_eq]
  constructor
  · rintro ⟨a, ⟨ha, hfa⟩, one1, hone, two1, htwo, rfl, rfl, rfl⟩
    exact ⟨mem_powerset.mp ha, mem_powerset.mp hone, mem_powerset.mp htwo,
      (not_failsEvidence_iff ped a).mp hfa⟩
  · rintro ⟨hht, hone, htwo, hcons⟩
    exact ⟨ht, ⟨mem_powerset.mpr hht, (not_failsEvidence_iff ped ht).mpr hcons⟩,
      one, mem_powerset.mpr hone, two, mem_powerset.mpr htwo, rfl, rfl, rfl⟩

/-- Claim C6: a `have_trait` subset contributes a hypothesis to the belief
state iff it is consistent with the evidence: every observed person is a
member exactly when their observed value is true; unobserved persons impose
no constraint, and no evidence-consistent subset is skipped. -/
theorem have_trait_enumerated_iff_consistent (ped : Pedigree ι)
    (ht one two : Finset ι) :
    (ht, one, two) ∈ hypList ped ↔
      (ht ⊆ ped.names ∧ one ⊆ ped.names ∧ two ⊆ ped.names \ one ∧
        ∀ p ∈ ped.names, ∀ b, ped.trait p = some b → (p ∈ ht ↔ b = true)) :=
  mem_hypList ped ht one two

/-- A two-person pedigree of founders where person `0` is observed to have
the trait and person `1` is unobserved. -/
def pairPed : Pedigree ℕ where
  names := {0, 1}
  mother := fun _ => none
  father := fun _ => none
  trait := fun n => if n = 0 then some true else none

/-- Witness for C6: on `pairPed`, `have_trait = {0}` is enumerated (with the
empty gene sets), and `have_trait = ∅` is skipped. -/
theorem have_trait_enumerated_iff_consistent_witness :
    ({0}, ∅, ∅) ∈ hypList pairPed ∧ (∅, ∅, ∅) ∉ hypList pairPed := by
  constructor
  · exact (have_trait_enumerated_iff_consistent pairPed {0} ∅ ∅).mpr (by decide)
  · intro h
    have h2 := (have_trait_enumerated_iff_consistent pairPed ∅ ∅ ∅).mp h
    revert h2
    decide

omit [LinearOrder ι] in
theorem bump_comm (d : Fin 3 → ℚ) (g₁ g₂ : Fin 3) (p₁ p₂ : ℚ) :
    bump (bump d g₁ p₁) g₂ p₂ = bump (bump d g₂ p₂) g₁ p₁ := by
  funext g
  simp only [bump]
  split_ifs <;> ring

omit [LinearOrder ι] in
theorem bumpT_comm (d : Bool → ℚ) (b₁ b₂ : Bool) (p₁ p₂ : ℚ) :
    bumpT (bumpT d b₁ p₁) b₂ p₂ = bumpT (bumpT d b₂ p₂) b₁ p₁ := by
  funext b
  simp only [bumpT]
  split_ifs <;> ring

/-- The gene-distribution half of one `update` step. -/
def geneSel (one two : Finset ι) (q : ι) (d : Fin 3 → ℚ) (p : ℚ) : Fin 3 → ℚ :=
  if q ∈ one then bump d 1 p
  else if q ∈ two then bump d 2 p
  else if q ∉ one ∧ q ∉ two then bump d 0 p
  else d

/-- `updEntry` always bumps the gene bucket chosen by the partition and the
trait bucket chosen by `have_trait` membership. -/
theorem updEntry_eq (one two ht : Finset ι) (p : ℚ) (q : ι)
    (e : (Fin 3 → ℚ) × (Bool → ℚ)) :
    updEntry one two ht p q e =
      (geneSel one two q e.1 p, bumpT e.2 (decide (q ∈ ht)) p) := by
  simp only [updEntry, geneSel]
  by_cases h1 : q ∈ one <;> by_cases h2 : q ∈ two <;> by_cases h3 : q ∈ ht <;>
    simp [h1, h2, h3]

theorem geneSel_comm (one₁ two₁ one₂ two₂ : Finset ι) (q : ι) (d : Fin 3 → ℚ)
    (p₁ p₂ : ℚ) :
    geneSel one₂ two₂ q (geneSel one₁ two₁ q d p₁) p₂ =
      geneSel one₁ two₁ q (geneSel one₂ two₂ q d p₂) p₁ := by
  simp only [geneSel]
  split_ifs <;> first | rfl | apply bump_comm

/-- Two belief-fold steps on one person commute. -/
theorem updEntry_comm (one₁ two₁ ht₁ one₂ two₂ ht₂ : Finset ι) (p₁ p₂ : ℚ) (q : ι)
    (e : (Fin 3 → ℚ) × (Bool → ℚ)) :
    updEntry one₂ two₂ ht₂ p₂ q (updEntry one₁ two₁ ht₁ p₁ q e) =
      updEntry one₁ two₁ ht₁ p₁ q (updEntry one₂ two₂ ht₂ p₂ q e) := by
  simp only [updEntry_eq]
  exact Prod.ext (geneSel_comm _ _ _ _ _ _ _ _) (bumpT_comm _ _ _ _ _)

/-- Two `update` calls with different hypotheses commute. -/
theorem update_comm (names : Finset ι) (st : BeliefState ι)
    (one₁ two₁ ht₁ one₂ two₂ ht₂ : Finset ι) (p₁ p₂ : ℚ) :
    update names (update names st one₁ two₁ ht₁ p₁) one₂ two₂ ht₂ p₂ =
      update names (update names st one₂ two₂ ht₂ p₂) one₁ two₁ ht₁ p₁ := by
  funext q
  simp only [update]
  by_cases hq : q ∈ names
  · simp only [hq, if_true, updEntry_comm]
  · simp only [hq, if_false]

omit [LinearOrder ι] in
/-- A left fold over a right-commutative step is permutation invariant. -/
theorem foldl_perm_eq {α β : Type} (f : β → α → β)
    (hf : ∀ b a₁ a₂, f (f b a₁) a₂ = f (f b a₂) a₁) {l₁ l₂ : List α}
    (h : l₁.Perm l₂) : ∀ b, l₁.foldl f b = l₂.foldl f b := by
  induction h with
  | nil => intro b; rfl
  | cons x h ih => intro b; simp only [List.foldl_cons]; exact ih _
  | swap x y l => intro b; simp only [List.foldl_cons, hf]
  | trans h₁ h₂ ih₁ ih₂ => intro b; rw [ih₁, ih₂]

/-- One accumulation step: fold a (hypothesis, joint probability) pair into
the belief state with `update`. -/
def accumulate (names : Finset ι) (st : BeliefState ι)
    (x : (Finset ι × Finset ι × Finset ι) × ℚ) : BeliefState ι :=
  update names st x.1.2.1 x.1.2.2 x.1.1 x.2

/-- Claim C7: the unnormalized belief state obtained by folding a finite
collection of (hypothesis, joint probability) pairs through `update` does
not depend on the processing order: permuted collections give equal states,
hence equal totals in every bucket of every person. -/
theorem accumulation_order_invariant (names : Finset ι) (init : BeliefState ι)
    (l₁ l₂ : List ((Finset ι × Finset ι × Finset ι) × ℚ)) (hp : l₁.Perm l₂) :
    l₁.foldl (accumulate names) init = l₂.foldl (accumulate names) init :=
  foldl_perm_eq (accumulate names)
    (fun st x y => update_comm names st x.1.2.1 x.1.2.2 x.1.1 y.1.2.1 y.1.2.2 y.1.1 x.2 y.2)
    hp init

/-- Witness for C7: two concrete hypothesis lists that are permutations of
one another produce the same folded state. -/
theorem accumulation_order_invariant_witness :
    [((({0} : Finset ℕ), (∅ : Finset ℕ), (∅ : Finset ℕ)), (1 : ℚ)),
        ((∅, {0}, {1}), 2)].Perm [(((∅ : Finset ℕ), ({0} : Finset ℕ), ({1} : Finset ℕ)), (2 : ℚ)),
        (({0}, ∅, ∅), 1)] ∧
      [((({0} : Finset ℕ), (∅ : Finset ℕ), (∅ : Finset ℕ)), (1 : ℚ)),
          ((∅, {0}, {1}), 2)].foldl (accumulate {0, 1}) zeroState =
        [(((∅ : Finset ℕ), ({0} : Finset ℕ), ({1} : Finset ℕ)), (2 : ℚ)),
          (({0}, ∅, ∅), 1)].foldl (accumulate {0, 1}) zeroState := by
  have hp : [((({0} : Finset ℕ), (∅ : Finset ℕ), (∅ : Finset ℕ)), (1 : ℚ)),
      ((∅, {0}, {1}), 2)].Perm [(((∅ : Finset ℕ), ({0} : Finset ℕ), ({1} : Finset ℕ)), (2 : ℚ)),
      (({0}, ∅, ∅), 1)] := List.Perm.swap _ _ _
  exact ⟨hp, accumulation_order_invariant {0, 1} zeroState _ _ hp⟩

/-- Membership trichotomy: with disjoint `one_gene` and `two_genes`, every
person of the pedigree lies in exactly one of the three gene sections. -/
theorem gene_trichotomy (ped : Pedigree ι) (one two : Finset ι)
    (hd : Disjoint one two) {x : ι} (hx : x ∈ ped.names) :
    (x ∈ one ∧ x ∉ two ∧ x ∉ noGenes ped one two) ∨
      (x ∉ one ∧ x ∈ two ∧ x ∉ noGenes ped one two) ∨
      (x ∉ one ∧ x ∉ two ∧ x ∈ noGenes ped one two) := by
  by_cases hxo : x ∈ one
  · exact Or.inl ⟨hxo, fun hxt => Finset.disjoint_left.mp hd hxo hxt,
      by simp [noGenes, hxo]⟩
  · by_cases hxt : x ∈ two
    · exact Or.inr (Or.inl ⟨hxo, hxt, by simp [noGenes, hxt]⟩)
    · exact Or.inr (Or.inr ⟨hxo, hxt, by simp [noGenes, hx, hxo, hxt]⟩)

/-- For a well-formed hypothesis no branch of the `two_genes` chain falls
through, and the selected factor is positive. -/
theorem geneFac2_pos (ped : Pedigree ι) (one two : Finset ι) (p : ι)
    (hwf : ped.WF) (hp : p ∈ ped.names) (h1 : one ⊆ ped.names)
    (h2 : two ⊆ ped.names) (hd : Disjoint one two) :
    0 < (geneFac2 ped one two p).getD 0 ∧ (geneFac2 ped one two p).isSome := by
  rcases hwf p hp with ⟨hm, hf⟩ | ⟨⟨m, hmn, hm⟩, f, hfn, hf⟩
  · constructor <;> simp [geneFac2, hm, hf, PROBS_gene] <;> norm_num
  · rcases gene_trichotomy ped one two hd hmn with ⟨a1, a2, a3⟩ | ⟨a1, a2, a3⟩ | ⟨a1, a2, a3⟩ <;>
      rcases gene_trichotomy ped one two hd hfn with ⟨b1, b2, b3⟩ | ⟨b1, b2, b3⟩ | ⟨b1, b2, b3⟩ <;>
      constructor <;>
      simp [geneFac2, hm, hf, a1, a2, a3, b1, b2, b3, PROBS_mutation] <;> norm_num

/-- Same for the `one_gene` chain. -/
theorem geneFac1_pos (ped : Pedigree ι) (one two : Finset ι) (p : ι)
    (hwf : ped.WF) (hp : p ∈ ped.names) (h1 : one ⊆ ped.names)
    (h2 : two ⊆ ped.names) (hd : Disjoint one two) :
    0 < (geneFac1 ped one two p).getD 0 ∧ (geneFac1 ped one two p).isSome := by
  rcases hwf p hp with ⟨hm, hf⟩ | ⟨⟨m, hmn, hm⟩, f, hfn, hf⟩
  · constructor <;> simp [geneFac1, hm, hf, PROBS_gene] <;> norm_num
  · rcases gene_trichotomy ped one two hd hmn with ⟨a1, a2, a3⟩ | ⟨a1, a2, a3⟩ | ⟨a1, a2, a3⟩ <;>
      rcases gene_trichotomy ped one two hd hfn with ⟨b1, b2, b3⟩ | ⟨b1, b2, b3⟩ | ⟨b1, b2, b3⟩ <;>
      constructor <;>
      simp [geneFac1, hm, hf, a1, a2, a3, b1, b2, b3, PROBS_mutation] <;> norm_num

/-- Same for the `set_no_genes` chain. -/
theorem geneFac0_pos (ped : Pedigree ι) (one two : Finset ι) (p : ι)
    (hwf : ped.WF) (hp : p ∈ ped.names) (h1 : one ⊆ ped.names)
    (h2 : two ⊆ ped.names) (hd : Disjoint one two) :
    0 < (geneFac0 ped one two p).getD 0 ∧ (geneFac0 ped one two p).isSome := by
  rcases hwf p hp with ⟨hm, hf⟩ | ⟨⟨m, hmn, hm⟩, f, hfn, hf⟩
  · constructor <;> simp [geneFac0, hm, hf, PROBS_gene] <;> norm_num
  · rcases gene_trichotomy ped one two hd hmn with ⟨a1, a2, a3⟩ | ⟨a1, a2, a3⟩ | ⟨a1, a2, a3⟩ <;>
      rcases gene_trichotomy ped one two hd hfn with ⟨b1, b2, b3⟩ | ⟨b1, b2, b3⟩ | ⟨b1, b2, b3⟩ <;>
      constructor <;>
      simp [geneFac0, hm, hf, a1, a2, a3, b1, b2, b3, PROBS_mutation] <;> norm_num

theorem noGenes_subset (ped : Pedigree ι) (one two : Finset ι) :
    noGenes ped one two ⊆ ped.names :=
  Finset.sdiff_subset.trans Finset.sdiff_subset

theorem traitFac_pos (g : Fin 3) (ped : Pedigree ι) (ht : Finset ι) (p : ι) :
    0 < traitFac g ped ht p := by
  have hb : ∀ b, 0 < PROBS_trait g b := by
    intro b
    fin_cases g <;> cases b <;> norm_num [PROBS_trait]
  rw [traitFac]
  split_ifs
  · exact hb true
  · exact hb false
  · norm_num

/-- A well-formed hypothesis never reaches a `raise TypeError` branch. -/
theorem typeErrorFree_of_wf (ped : Pedigree ι) (one two : Finset ι)
    (hwf : ped.WF) (h1 : one ⊆ ped.names) (h2 : two ⊆ ped.names)
    (hd : Disjoint one two) : typeErrorFree ped one two :=
  ⟨fun p hp => (geneFac2_pos ped one two p hwf (h2 hp) h1 h2 hd).2,
    fun p hp => (geneFac1_pos ped one two p hwf (h1 hp) h1 h2 hd).2,
    fun p hp => (geneFac0_pos ped one two p hwf (noGenes_subset ped one two hp) h1 h2 hd).2⟩

/-- On a well-formed hypothesis `joint_probability` returns its product. -/
theorem joint_probability_eq_of_wf (ped : Pedigree ι) (one two ht : Finset ι)
    (hwf : ped.WF) (h1 : one ⊆ ped.names) (h2 : two ⊆ ped.names)
    (hd : Disjoint one two) :
    joint_probability ped one two ht = some (jointVal ped one two ht) := by
  rw [joint_probability, if_pos (typeErrorFree_of_wf ped one two hwf h1 h2 hd)]

/-- On a well-formed hypothesis the joint probability is strictly positive. -/
theorem jointVal_pos (ped : Pedigree ι) (one two ht : Finset ι) (hwf : ped.WF)
    (h1 : one ⊆ ped.names) (h2 : two ⊆ ped.names) (hd : Disjoint one two) :
    0 < jointVal ped one two ht := by
  rw [jointVal]
  have hp2 : ∀ p ∈ two, 0 < personFac 2 ped one two ht p := fun p hp =>
    mul_pos (geneFac2_pos ped one two p hwf (h2 hp) h1 h2 hd).1 (traitFac_pos 2 ped ht p)
  have hp1 : ∀ p ∈ one, 0 < personFac 1 ped one two ht p := fun p hp =>
    mul_pos (geneFac1_pos ped one two p hwf (h1 hp) h1 h2 hd).1 (traitFac_pos 1 ped ht p)
  have hp0 : ∀ p ∈ noGenes ped one two, 0 < personFac 0 ped one two ht p := fun p hp =>
    mul_pos (geneFac0_pos ped one two p hwf (noGenes_subset ped one two hp) h1 h2 hd).1
      (traitFac_pos 0 ped ht p)
  exact mul_pos (mul_pos (Finset.prod_pos hp2) (Finset.prod_pos hp1)) (Finset.prod_pos hp0)

/-- Every iterated person is in `have_trait` or its complement, so the
`Error`-printing fallback is dead. -/
theorem not_printsError (ped : Pedigree ι) (one two ht : Finset ι)
    (h1 : one ⊆ ped.names) (h2 : two ⊆ ped.names) :
    ¬ printsError ped one two ht := by
  rintro ⟨p, hp, hnt, hnc⟩
  have hpn : p ∈ ped.names := by
    rcases Finset.mem_union.mp hp with h | h
    · rcases Finset.mem_union.mp h with h3 | h3
      · exact h2 h3
      · exact h1 h3
    · exact noGenes_subset ped one two h
  exact hnc (Finset.mem_sdiff.mpr ⟨hpn, hnt⟩)

/-- Claim C8: under a well-formed hypothesis (disjoint gene sets and
`have_trait` inside the pedigree, parents both absent or both resolving)
neither failure branch of `joint_probability` is reachable: no section
raises `TypeError` and the `Error`-printing fallback never runs. -/
theorem failure_branches_unreachable (ped : Pedigree ι) (one two ht : Finset ι)
    (hwf : ped.WF) (h1 : one ⊆ ped.names) (h2 : two ⊆ ped.names)
    (hd : Disjoint one two) (hht : ht ⊆ ped.names) :
    typeErrorFree ped one two ∧ ¬ printsError ped one two ht :=
  ⟨typeErrorFree_of_wf ped one two hwf h1 h2 hd, not_printsError ped one two ht h1 h2⟩

/-- Witness for C8 on the concrete three-person pedigree. -/
theorem failure_branches_unreachable_witness :
    (trioPed.WF ∧ ({0} : Finset ℕ) ⊆ trioPed.names ∧
        ({1, 2} : Finset ℕ) ⊆ trioPed.names ∧
        Disjoint ({0} : Finset ℕ) ({1, 2} : Finset ℕ) ∧
        ({2} : Finset ℕ) ⊆ trioPed.names) ∧
      typeErrorFree trioPed {0} {1, 2} ∧ ¬ printsError trioPed {0} {1, 2} {2} :=
  ⟨⟨by decide, by decide, by decide, Finset.disjoint_left.mpr (by decide), by decide⟩,
    failure_branches_unreachable trioPed {0} {1, 2} {2} (by decide) (by decide)
      (by decide) (Finset.disjoint_left.mpr (by decide)) (by decide)⟩

omit [LinearOrder ι] in
theorem bump_sum (d : Fin 3 → ℚ) (g : Fin 3) (p : ℚ) :
    bump d g p 0 + bump d g p 1 + bump d g p 2 = d 0 + d 1 + d 2 + p := by
  fin_cases g <;> norm_num [bump, Fin.ext_iff] <;> ring

omit [LinearOrder ι] in
theorem bumpT_sum (d : Bool → ℚ) (b : Bool) (p : ℚ) :
    bumpT d b p true + bumpT d b p false = d true + d false + p := by
  cases b <;> norm_num [bumpT] <;> ring

/-- Each `update` adds the joint probability to exactly one gene bucket of
every person, so the gene total of that person grows by `p`. -/
theorem geneTotal_update (names : Finset ι) (st : BeliefState ι)
    (one two ht : Finset ι) (p : ℚ) (q : ι) (hq : q ∈ names) :
    geneTotal (update names st one two ht p) q = geneTotal st q + p := by
  simp only [geneTotal, update, hq, if_true, updEntry_eq]
  simp only [geneSel]
  split_ifs with h1 h2 h3
  · exact bump_sum _ _ _
  · exact bump_sum _ _ _
  · exact bump_sum _ _ _
  · exact absurd ⟨h1, h2⟩ h3

/-- Each `update` also adds `p` to exactly one trait bucket. -/
theorem traitTotal_update (names : Finset ι) (st : BeliefState ι)
    (one two ht : Finset ι) (p : ℚ) (q : ι) (hq : q ∈ names) :
    traitTotal (update names st one two ht p) q = traitTotal st q + p := by
  simp only [traitTotal, update, hq, if_true, updEntry_eq]
  exact bumpT_sum _ _ _

theorem geneTotal_foldl (ped : Pedigree ι)
    (l : List (Finset ι × Finset ι × Finset ι)) (init : BeliefState ι) (q : ι)
    (hq : q ∈ ped.names) :
    geneTotal (l.foldl (stepHyp ped) init) q =
      geneTotal init q +
        (l.map fun h => (joint_probability ped h.2.1 h.2.2 h.1).getD 0).sum := by
  induction l generalizing init with
  | nil => simp
  | cons x xs ih =>
    rw [List.foldl_cons, ih (stepHyp ped init x), List.map_cons, List.sum_cons, stepHyp,
      geneTotal_update ped.names init x.2.1 x.2.2 x.1 _ q hq]
    ring

theorem traitTotal_foldl (ped : Pedigree ι)
    (l : List (Finset ι × Finset ι × Finset ι)) (init : BeliefState ι) (q : ι)
    (hq : q ∈ ped.names) :
    traitTotal (l.foldl (stepHyp ped) init) q =
      traitTotal init q +
        (l.map fun h => (joint_probability ped h.2.1 h.2.2 h.1).getD 0).sum := by
  induction l generalizing init with
  | nil => simp
  | cons x xs ih =>
    rw [List.foldl_cons, ih (stepHyp ped init x), List.map_cons, List.sum_cons, stepHyp,
      traitTotal_update ped.names init x.2.1 x.2.2 x.1 _ q hq]
    ring

/-- The hypothesis space is never empty: the subset of persons observed to
have the trait always passes the evidence filter. -/
theorem hypList_ne_nil (ped : Pedigree ι) : hypList ped ≠ [] := by
  have hmem : (ped.names.filter (fun p => ped.trait p = some true),
      (∅ : Finset ι), (∅ : Finset ι)) ∈ hypList ped := by
    rw [mem_hypList]
    refine ⟨Finset.filter_subset _ _, Finset.empty_subset _,
      by rw [Finset.sdiff_empty]; exact Finset.empty_subset _, ?_⟩
    intro p hp b hb
    constructor
    · intro hpf
      have h2 : some b = some true := hb.symm.trans (Finset.mem_filter.mp hpf).2
      exact Option.some_injective _ h2
    · intro hbt
      exact Finset.mem_filter.mpr ⟨hp, by rw [hb, hbt]⟩
  exact List.ne_nil_of_mem hmem

/-- `two_genes ⊆ names - one_gene` makes the two gene subsets disjoint. -/
theorem disjoint_of_subset_sdiff {one two s : Finset ι} (h : two ⊆ s \ one) :
    Disjoint one two := by
  rw [Finset.disjoint_left]
  intro a ha hat
  exact (Finset.mem_sdiff.mp (h hat)).2 ha

theorem totalLikelihood_pos (ped : Pedigree ι) (hwf : ped.WF) :
    0 < totalLikelihood ped := by
  rw [totalLikelihood]
  refine List.sum_pos _ (fun x hx => ?_) ?_
  · rcases List.mem_map.mp hx with ⟨⟨ht, one, two⟩, hh, rfl⟩
    obtain ⟨hht, hone, htwo, _⟩ := (mem_hypList ped ht one two).mp hh
    have hdisj : Disjoint one two := disjoint_of_subset_sdiff htwo
    have h2n : two ⊆ ped.names := htwo.trans Finset.sdiff_subset
    rw [joint_probability_eq_of_wf ped one two ht hwf hone h2n hdisj, Option.getD_some]
    exact jointVal_pos ped one two ht hwf hone h2n hdisj
  · obtain ⟨x, hx⟩ := List.exists_mem_of_ne_nil _ (hypList_ne_nil ped)
    exact List.ne_nil_of_mem (List.mem_map_of_mem _ hx)

/-- Claim C2: after the orchestrator folds every evidence-consistent
hypothesis into the belief state and before normalization, for every
person the three gene buckets and the two trait buckets sum to the same constant, the
marginal likelihood of the evidence, and that constant is positive and
identical for every person of the pedigree. -/
theorem accumulated_totals_eq_marginal (ped : Pedigree ι) (hwf : ped.WF) :
    0 < totalLikelihood ped ∧
      ∀ q ∈ ped.names,
        geneTotal (runUpdates ped) q = totalLikelihood ped ∧
          traitTotal (runUpdates ped) q = totalLikelihood ped := by
  refine ⟨totalLikelihood_pos ped hwf, fun q hq => ?_⟩
  rw [runUpdates]
  constructor
  · rw [geneTotal_foldl ped _ zeroState q hq]
    simp [geneTotal, zeroState, totalLikelihood]
  · rw [traitTotal_foldl ped _ zeroState q hq]
    simp [traitTotal, zeroState, totalLikelihood]

/-- Witness for C2 on a concrete two-founder pedigree with one observation. -/
theorem accumulated_totals_eq_marginal_witness :
    pairPed.WF ∧
      (0 < totalLikelihood pairPed ∧
        ∀ q ∈ pairPed.names,
          geneTotal (runUpdates pairPed) q = totalLikelihood pairPed ∧
            traitTotal (runUpdates pairPed) q = totalLikelihood pairPed) :=
  ⟨by decide, accumulated_totals_eq_marginal pairPed (by decide)⟩

/-- Claim C4: when every accumulated distribution has a positive total,
`normalize` succeeds, each distribution afterwards sums exactly to 1 (hence
within 1e-9 of 1.0), and within each distribution the ratios between
buckets are unchanged. -/
theorem normalize_sums_to_one (names : Finset ι) (st : BeliefState ι)
    (h : ∀ q ∈ names, 0 < geneTotal st q ∧ 0 < traitTotal st q) :
    ∃ st2, normalize names st = some st2 ∧
      ∀ q ∈ names,
        ((st2 q).1 0 + (st2 q).1 1 + (st2 q).1 2 = 1) ∧
        ((st2 q).2 true + (st2 q).2 false = 1) ∧
        (∀ g g2 : Fin 3, (st2 q).1 g * (st q).1 g2 = (st2 q).1 g2 * (st q).1 g) ∧
        (∀ b b2 : Bool, (st2 q).2 b * (st q).2 b2 = (st2 q).2 b2 * (st q).2 b) := by
  have hcond : ∀ q ∈ names, geneTotal st q ≠ 0 ∧ traitTotal st q ≠ 0 :=
    fun q hq => ⟨(h q hq).1.ne', (h q hq).2.ne'⟩
  refine ⟨_, by rw [normalize, if_pos hcond], ?_⟩
  intro q hq
  have hg := (hcond q hq).1
  have ht := (hcond q hq).2
  simp only [hq, if_true]
  refine ⟨?_, ?_, ?_, ?_⟩
  · show (st q).1 0 / geneTotal st q + (st q).1 1 / geneTotal st q +
        (st q).1 2 / geneTotal st q = 1
    rw [div_add_div_same, div_add_div_same]
    exact div_self hg
  · show (st q).2 true / traitTotal st q + (st q).2 false / traitTotal st q = 1
    rw [div_add_div_same]
    exact div_self ht
  · intro g g2
    show (st q).1 g / geneTotal st q * (st q).1 g2 =
      (st q).1 g2 / geneTotal st q * (st q).1 g
    ring
  · intro b b2
    show (st q).2 b / traitTotal st q * (st q).2 b2 =
      (st q).2 b2 / traitTotal st q * (st q).2 b
    ring

/-- A concrete accumulated state with positive totals. -/
def wDist : BeliefState ℕ :=
  fun _ => (fun g => if g = 0 then 1 else 0, fun b => if b = true then 1 else 0)

/-- Witness for C4 at the concrete state `wDist` over one person. -/
theorem normalize_sums_to_one_witness :
    (∀ q ∈ ({0} : Finset ℕ), 0 < geneTotal wDist q ∧ 0 < traitTotal wDist q) ∧
      ∃ st2, normalize {0} wDist = some st2 ∧
        ∀ q ∈ ({0} : Finset ℕ),
          ((st2 q).1 0 + (st2 q).1 1 + (st2 q).1 2 = 1) ∧
          ((st2 q).2 true + (st2 q).2 false = 1) ∧
          (∀ g g2 : Fin 3, (st2 q).1 g * (wDist q).1 g2 = (st2 q).1 g2 * (wDist q).1 g) ∧
          (∀ b b2 : Bool, (st2 q).2 b * (wDist q).2 b2 = (st2 q).2 b2 * (wDist q).2 b) := by
  have hyp : ∀ q ∈ ({0} : Finset ℕ), 0 < geneTotal wDist q ∧ 0 < traitTotal wDist q := by
    intro q hq
    constructor <;> simp [wDist, geneTotal, traitTotal, Fin.ext_iff]
  exact ⟨hyp, normalize_sums_to_one {0} wDist hyp⟩

/-- Claim C9: `normalize` fails (the division raises `ZeroDivisionError`)
when some accumulated distribution totals zero, and completes when every
total is positive. -/
theorem normalize_zero_total_fails (names : Finset ι) (st : BeliefState ι) :
    ((∃ q ∈ names, geneTotal st q = 0 ∨ traitTotal st q = 0) →
        normalize names st = none) ∧
      ((∀ q ∈ names, 0 < geneTotal st q ∧ 0 < traitTotal st q) →
        (normalize names st).isSome) := by
  constructor
  · rintro ⟨q, hq, hz⟩
    rw [normalize, if_neg]
    intro hall
    rcases hz with hz | hz
    · exact (hall q hq).1 hz
    · exact (hall q hq).2 hz
  · intro h
    rw [normalize, if_pos (fun q hq => ⟨(h q hq).1.ne', (h q hq).2.ne'⟩)]
    rfl

/-- Witness for C9: the all-zero state is rejected, `wDist` is accepted. -/
theorem normalize_zero_total_fails_witness :
    ((∃ q ∈ ({0} : Finset ℕ), geneTotal zeroState q = 0 ∨ traitTotal zeroState q = 0) ∧
        normalize {0} (zeroState : BeliefState ℕ) = none) ∧
      ((∀ q ∈ ({0} : Finset ℕ), 0 < geneTotal wDist q ∧ 0 < traitTotal wDist q) ∧
        (normalize {0} wDist).isSome) := by
  have h1 : ∃ q ∈ ({0} : Finset ℕ), geneTotal zeroState q = 0 ∨ traitTotal zeroState q = 0 :=
    ⟨0, by simp, Or.inl (by simp [geneTotal, zeroState])⟩
  have h2 : ∀ q ∈ ({0} : Finset ℕ), 0 < geneTotal wDist q ∧ 0 < traitTotal wDist q := by
    intro q hq
    constructor <;> simp [wDist, geneTotal, traitTotal, Fin.ext_iff]
  exact ⟨⟨h1, (normalize_zero_total_fails {0} zeroState).1 h1⟩,
    ⟨h2, (normalize_zero_total_fails {0} wDist).2 h2⟩⟩

/-- Modelled from the spec: a malformed input record in the sense of the
DataError contract, read off the loaded dictionary: exactly one of
mother/father present, or a present parent not resolving to a loaded name. -/
def hasMalformedRecord (ped : Pedigree ι) : Prop :=
  ∃ n ∈ ped.names,
    (ped.mother n).isSome ≠ (ped.father n).isSome ∨
      ((ped.mother n).isSome ∧ ¬ omem (ped.mother n) ped.names) ∨
      ((ped.father n).isSome ∧ ¬ omem (ped.father n) ped.names)

instance (ped : Pedigree ι) : Decidable (hasMalformedRecord ped) := by
  unfold hasMalformedRecord; infer_instance

/-- A data set with a single record naming a mother but no father. -/
def badRows : List RawRow :=
  [⟨"c", "m", "", ""⟩]

/-- Counterexample to C10: `load_data` performs no validation.  On a record
with exactly one parent present it returns (rather than rejects) a pedigree
that violates the parent invariant, so the core does receive an invalid
Pedigree. -/
theorem load_data_no_validation :
    hasMalformedRecord (load_data badRows) ∧ ¬ (load_data badRows).WF := by
  constructor
  · decide
  · decide

/-- Amended C10: the loader applies no validation; a malformed record is
loaded as-is into an invalid Pedigree, and the failure surfaces only during
inference, where `joint_probability` raises `TypeError` for the child whose
parent references cannot be classified. -/
theorem load_data_defers_errors :
    hasMalformedRecord (load_data badRows) ∧ ¬ (load_data badRows).WF ∧
      joint_probability (load_data badRows) ∅ ∅ ∅ = none := by
  refine ⟨by decide, by decide, ?_⟩
  rw [joint_probability, if_neg]
  decide

end Heredity
